import Mathlib

/-!
Verification of the scalar_set_eval evaluation engine and benchmark harness.

The Rust sources are shallowly embedded: pure computations become Lean
functions, machine integers become `Nat`/`Int` with explicit `% 2^32`
where wrap-around matters, fallible operations return `Option`/`Except`,
and the external `ro_scalar_set` capability contract (attach / contains /
any / serialize) is modelled from its documented corpus-format contract.

Layout: all definitions first, then the lemmas and theorems.
-/

namespace ScalarSetEval

/-! ## Definitions

### Benchmark harness: thread-count ladder (src/test.rs, run_tests)

The Rust loop is
```
let mut last = 1;
thread_counts.push( last );
while last < max_threads {
    let next = std::cmp::min( last * 2, max_threads );
    thread_counts.push( next );
    last = next;
}
```
The loop is embedded with a fuel parameter; `max_threads` steps of fuel
are always sufficient because `last` strictly increases each iteration
(the initial value is 1).
-/

/-- One iteration of the `while last < max_threads` loop from `run_tests`:
pushes `min (last * 2) max` and repeats with the new `last`. -/
def threadCountsLoop : Nat → Nat → Nat → List Nat
  | 0, _, _ => []
  | fuel + 1, max, last =>
    if last < max then
      let next := min (last * 2) max
      next :: threadCountsLoop fuel max next
    else []

/-- The thread-count ladder built by `run_tests` in src/test.rs:
starts at 1, doubles, capped at `max_threads`. -/
def thread_counts (max_threads : Nat) : List Nat :=
  1 :: threadCountsLoop max_threads max_threads 1

/-! ### The external scalar-set capability contract

Modelled from the spec: the `ro_scalar_set` crate is an external
collaborator; only its capability contract (attach / contains / any /
serialize / size / bucket_count) and its corpus record format
`[header cell][bucket-count region of bucket_count cells][size cell]
[payload region of size elements]` are in scope.  Cells are modelled as
unbounded `Int` values standing for the 4-byte cells; `f32` elements are
represented by the integer they round to (see `from_i32_f32` below), so a
single `Int`-cell model covers both element representations. -/

/-- Modelled from the spec: a Stored Set View — a bucket-count region
(opaque to the engine) plus a payload region of member values. -/
structure RoScalarSet where
  buckets : List Int
  values : List Int
deriving DecidableEq, Inhabited

/-- Modelled from the spec: `view.bucket_count() -> count`. -/
def RoScalarSet.bucket_count (s : RoScalarSet) : Nat := s.buckets.length

/-- Modelled from the spec: `view.size() -> count`. -/
def RoScalarSet.size (s : RoScalarSet) : Nat := s.values.length

/-- Modelled from the spec: `view.contains(value) -> bool`, the external
membership predicate. -/
def RoScalarSet.contains (s : RoScalarSet) (v : Int) : Bool := s.values.contains v

/-- Modelled from the spec: `view.any(other_view) -> bool` — whether any value
of `self` is found in `other`. -/
def RoScalarSet.any (self other : RoScalarSet) : Bool :=
  self.values.any (fun v => other.contains v)

/-- Modelled from the spec: the record written by `view.serialize(writer)` —
`[header cell][bucket-count region][size cell][payload region]`, the header
cell holding the bucket count and the size cell holding the payload size. -/
def RoScalarSet.serialize (s : RoScalarSet) : List Int :=
  ((s.buckets.length : Int) :: s.buckets) ++ ((s.values.length : Int) :: s.values)

/-- Modelled from the spec:
`attach(buffer) -> Result<(View, remaining_buffer), EndOfData>` — parses one
record from the front of the buffer, failing when no complete record fits. -/
def attach (buffer : List Int) : Option (RoScalarSet × List Int) :=
  match buffer with
  | [] => none
  | header :: rest =>
    if 0 ≤ header ∧ header.toNat ≤ rest.length then
      match rest.drop header.toNat with
      | [] => none
      | sizeCell :: rest2 =>
        if 0 ≤ sizeCell ∧ sizeCell.toNat ≤ rest2.length then
          some (⟨rest.take header.toNat, rest2.take sizeCell.toNat⟩,
                rest2.drop sizeCell.toNat)
        else none
    else none

/-- Modelled from the spec: preloading eagerly copies a zero-copy view into
process-owned memory; the copy has the same logical contents. -/
def RoScalarSet.clone (s : RoScalarSet) : RoScalarSet := s

/-! ### Evaluation engine (src/evaluation.rs) -/

/-- `EvaluationResult` from src/evaluation.rs.  `match_count` is a `u32`
(kept below `2 ^ 32` by the evaluator); the wall-clock `duration` field is
not part of the functional model. -/
structure EvaluationResult where
  match_count : Nat
  data_preloaded : Bool
  thread_count : Nat
deriving DecidableEq

/-- `SetsForEvaluation` from src/evaluation.rs: the raw buffer (kept for the
accelerator path) plus the attached set views. -/
structure SetsForEvaluation where
  raw_data : List Int
  sets : List RoScalarSet

/-- The `loop { attach ... }` from `load_data` in src/evaluation.rs:
attaches views from the front of the buffer until the first attach failure,
which ends the walk (normal end-of-corpus, not an error).  Termination:
every successful attach consumes at least the header and size cells. -/
def attachAll (buffer : List Int) : List RoScalarSet :=
  match h : attach buffer with
  | none => []
  | some p => p.1 :: attachAll p.2
termination_by buffer.length
decreasing_by
  cases buffer with
  | nil => simp [attach] at h
  | cons header rest =>
    simp only [attach] at h
    split at h
    · rename_i hh
      split at h
      · exact absurd h (by simp)
      · rename_i sizeCell rest2 hd
        split at h
        · rename_i hs
          have hlen : rest2.length + 1 ≤ rest.length := by
            have := congrArg List.length hd
            simp [List.length_drop] at this
            omega
          obtain rfl := (Option.some.inj h).symm
          show (rest2.drop sizeCell.toNat).length < (header :: rest).length
          simp only [List.length_drop, List.length_cons]
          omega
        · exact absurd h (by simp)
    · exact absurd h (by simp)

/-- `load_data` from src/evaluation.rs: attach every set, then (when
`preload_to_memory`) clone each view into owned memory. -/
def load_data (data : List Int) (preload_to_memory : Bool) : SetsForEvaluation :=
  let buffers := attachAll data
  let buffers := if preload_to_memory then buffers.map RoScalarSet.clone else buffers
  ⟨data, buffers⟩

/-- `evaluate_set_cpu` from src/evaluation.rs: the per-set binary flag —
1 if `test_set.any( set )`, 0 otherwise. -/
def evaluate_set_cpu (test_set set : RoScalarSet) : Nat :=
  if test_set.any set then 1 else 0

/-- `evaluate_with_cpu_expr` from src/evaluation.rs: sums the per-set flags
(`u32` sum, hence `% 2 ^ 32`) and records the preload flag and the worker
count reported by the pool (`rayon::current_num_threads()`, which inside
`install` is the pool's configured thread count). -/
def evaluate_with_cpu_expr (sets : List RoScalarSet) (test_set : RoScalarSet)
    (data_preloaded : Bool) (current_threads : Nat) : EvaluationResult :=
  { match_count := ((sets.map (fun s => evaluate_set_cpu test_set s)).sum) % 2 ^ 32,
    data_preloaded := data_preloaded,
    thread_count := current_threads }

/-- `evaluate_with_cpu` from src/evaluation.rs: builds a pool of
`thread_count` workers and runs `evaluate_with_cpu_expr` inside it.  The pool
bounds parallelism only; the reduction it computes is the same associative
sum, so the embedding passes `thread_count` through. -/
def evaluate_with_cpu (sets : List RoScalarSet) (test_set : RoScalarSet)
    (data_preloaded : Bool) (thread_count : Nat) : EvaluationResult :=
  evaluate_with_cpu_expr sets test_set data_preloaded thread_count

/-! ### Accelerator (GPU) path (src/evaluation.rs, `WithGpu` impls) -/

/-- The per-set offset-table loop of `evaluate_with_gpu` for `f32`
(src/evaluation.rs lines 263-282):
```
let begin_index = set_start + 1 + buckets as i32 + 1;
let end_index   = set_start + total_size as i32;   // total = 1+buckets+1+size
set_start = end_index;
```
Returns the `begin_indexes` and `end_indexes` vectors. -/
def gpuIndexesFrom (set_start : Int) : List RoScalarSet → List Int × List Int
  | [] => ([], [])
  | s :: rest =>
    let buckets := s.bucket_count
    let size := s.size
    let total_size := 1 + buckets + 1 + size
    let begin_index := set_start + 1 + (buckets : Int) + 1
    let end_index := set_start + (total_size : Int)
    let tailIdx := gpuIndexesFrom end_index rest
    (begin_index :: tailIdx.1, end_index :: tailIdx.2)

/-- `evaluate_with_gpu` for `f32` (src/evaluation.rs lines 214-320): builds
the offset tables, uploads buffer / offsets / probe values, and enqueues one
kernel per stored set.  The kernel (lines 220-246) allocates no output
buffer and returns early on `|buffer[i] - test[t]| < 0.1` without writing
anything, and the host function ends in the literal `0` (line 319), so the
reported match count is the constant 0. -/
def evaluate_with_gpu_f32 (raw_data : List Int) (sets : List RoScalarSet)
    (test_set : List Int) : Nat :=
  let _indexes := gpuIndexesFrom 0 sets
  0

/-- `evaluate_with_gpu` for `i32` (src/evaluation.rs lines 196-207):
`panic!("Not implemented")`, modelled as an `Except.error`. -/
def evaluate_with_gpu_i32 (raw_data : List Int) (sets : List RoScalarSet)
    (test_set : List Int) : Except String Nat :=
  Except.error "Not implemented"

/-- `evaluate_sets_gpu` when the `gpu` feature is compiled out
(src/evaluation.rs lines 138-145): `panic!("GPU evaluation support not
enabled.")`, modelled as an `Except.error`. -/
def evaluate_sets_gpu_no_gpu (sets : SetsForEvaluation) (test_set : List Int) :
    Except String EvaluationResult :=
  Except.error "GPU evaluation support not enabled."

/-! ### Value generator (src/utility.rs, src/traits.rs)

`generate_values` draws random `i32` values into a `HashSet` until it holds
`values_in_set` distinct values, then converts each to the target type with
`T::from_i32`.  The RNG is modelled as an explicit stream of draws (a list);
exhausting the stream before collecting enough distinct values returns
`none` (the real loop would keep drawing — the spec documents that it blocks
forever when the range is too small). -/

/-- The `while generated_values.len() < n` loop of `generate_values`:
insert each draw unless already present. -/
def generateLoop (n : Nat) : List Int → List Int → Option (List Int)
  | acc, [] => if n ≤ acc.length then some acc else none
  | acc, v :: draws =>
    if n ≤ acc.length then some acc
    else generateLoop n (if v ∈ acc then acc else v :: acc) draws

/-- `FromI32 for i32` (src/traits.rs): the identity. -/
def from_i32_i32 (v : Int) : Int := v

/-- Round-to-nearest-even of a natural number to a 24-bit significand: the
value of `(m as f32)` for non-negative `m` (an `f32` has 24 significand
bits, so every integer of magnitude at most `2 ^ 24` is exact; above that the
low `k` bits are rounded away, ties to the even quotient).  The shift `k` is
the number of exponents `i` with `2 ^ (24 + i) ≤ m`, i.e. `bitlength m - 24`.
Results are the exact integer values of the resulting floats, so two draws
collide exactly when their `f32` images are equal. -/
def f32RoundNat (m : Nat) : Nat :=
  if m ≤ 2 ^ 24 then m
  else
    let k := ((List.range 32).filter (fun i => 2 ^ (24 + i) ≤ m)).length
    let q := m / 2 ^ k
    let r := m % 2 ^ k
    let half := 2 ^ (k - 1)
    if half < r ∨ (r = half ∧ q % 2 = 1) then (q + 1) * 2 ^ k else q * 2 ^ k

/-- `FromI32 for f32` (src/traits.rs): `value as f32`, i.e. round to the
nearest `f32`; the result is represented by its exact integer value. -/
def from_i32_f32 (v : Int) : Int :=
  if v < 0 then -(f32RoundNat v.natAbs : Int) else (f32RoundNat v.natAbs : Int)

/-- `generate_values::<i32>` from src/utility.rs over an explicit stream of
RNG draws. -/
def generate_values_i32 (values_in_set : Nat) (draws : List Int) : Option (List Int) :=
  (generateLoop values_in_set [] draws).map (fun l => l.map from_i32_i32)

/-- `generate_values::<f32>` from src/utility.rs over an explicit stream of
RNG draws. -/
def generate_values_f32 (values_in_set : Nat) (draws : List Int) : Option (List Int) :=
  (generateLoop values_in_set [] draws).map (fun l => l.map from_i32_f32)

/-! ### Corpus file names (src/utility.rs, get_set_file_name) -/

/-- Decimal rendering of a natural number (the digits of `format!("{}")`),
most significant digit first. -/
def natStr (n : Nat) : List Char :=
  if n = 0 then ['0'] else (Nat.digits 10 n).reverse.map Nat.digitChar

/-- Decimal rendering of an `i32` value as `format!("{}")` renders it:
a leading minus sign for negative values. -/
def intStr (v : Int) : List Char :=
  if v < 0 then '-' :: natStr v.natAbs else natStr v.natAbs

/-- The decimal value of a digit character (inverse of `Nat.digitChar` on
decimal digits); used only in proofs. -/
def charVal (c : Char) : Nat := c.toNat - 48

/-- `get_set_file_name` from src/utility.rs:
`format!("{}32_{}_sets_with_{}_values.bin", repr, set_count, set_size)`
with `f32`/`i32` selected by the `floats` flag. -/
def get_set_file_name (set_count set_size : Int) (floats : Bool) : String :=
  if floats then
    String.mk ("f32_".data ++ intStr set_count ++ "_sets_with_".data
      ++ intStr set_size ++ "_values.bin".data)
  else
    String.mk ("i32_".data ++ intStr set_count ++ "_sets_with_".data
      ++ intStr set_size ++ "_values.bin".data)

/-! ## Lemmas and theorems -/

lemma threadCountsLoop_self (fuel max : Nat) : threadCountsLoop fuel max max = [] := by
  cases fuel with
  | zero => rfl
  | succ n => simp [threadCountsLoop]

lemma threadCountsLoop_getLast (fuel max last : Nat) (h1 : 1 ≤ last) (h2 : last ≤ max)
    (hf : max - last ≤ fuel) :
    (last :: threadCountsLoop fuel max last).getLast? = some max := by
  induction fuel generalizing last with
  | zero =>
    have hlm : last = max := by omega
    subst hlm
    simp [threadCountsLoop]
  | succ n ih =>
    by_cases h : last < max
    · have hnext1 : 1 ≤ min (last * 2) max := by omega
      have hnext2 : min (last * 2) max ≤ max := min_le_right _ _
      have hf' : max - min (last * 2) max ≤ n := by omega
      have hrec := ih (min (last * 2) max) hnext1 hnext2 hf'
      simp only [threadCountsLoop, if_pos h]
      rw [List.getLast?_cons_cons]
      exact hrec
    · have hlm : last = max := by omega
      subst hlm
      simp [threadCountsLoop]

lemma threadCountsLoop_mem (fuel max last : Nat) (h1 : 1 ≤ last) :
    ∀ x ∈ threadCountsLoop fuel max last, 1 ≤ x ∧ x ≤ max := by
  induction fuel generalizing last with
  | zero => simp [threadCountsLoop]
  | succ n ih =>
    intro x hx
    by_cases h : last < max
    · simp only [threadCountsLoop, if_pos h, List.mem_cons] at hx
      rcases hx with hx | hx
      · subst hx
        constructor
        · omega
        · exact min_le_right _ _
      · exact ih (min (last * 2) max) (by omega) x hx
    · simp [threadCountsLoop, if_neg h] at hx

lemma threadCountsLoop_chain (fuel max last : Nat) :
    List.Chain (fun a b => b = min (a * 2) max) last (threadCountsLoop fuel max last) := by
  induction fuel generalizing last with
  | zero => exact List.Chain.nil
  | succ n ih =>
    by_cases h : last < max
    · simp only [threadCountsLoop, if_pos h]
      exact List.Chain.cons rfl (ih _)
    · simp only [threadCountsLoop, if_neg h]
      exact List.Chain.nil

/-- **C3.** The harness's thread-count ladder starts at 1, doubles at each step
(capped at the available worker count `m`), every entry is between 1 and `m`,
the ladder ends exactly at `m`, and in particular `thread_counts 6 = [1, 2, 4, 6]`. -/
theorem claim_C3_thread_count_ladder :
    thread_counts 6 = [1, 2, 4, 6] ∧
    ∀ m : Nat, 1 ≤ m →
      (thread_counts m).head? = some 1 ∧
      (thread_counts m).getLast? = some m ∧
      List.Chain' (fun a b => b = min (a * 2) m) (thread_counts m) ∧
      ∀ x ∈ thread_counts m, 1 ≤ x ∧ x ≤ m := by
  refine ⟨by decide, fun m hm => ⟨rfl, ?_, ?_, ?_⟩⟩
  · exact threadCountsLoop_getLast m m 1 le_rfl hm (by omega)
  · exact threadCountsLoop_chain m m 1
  · intro x hx
    rcases List.mem_cons.mp hx with hx | hx
    · subst hx; exact ⟨le_rfl, hm⟩
    · exact threadCountsLoop_mem m m 1 le_rfl x hx

/-- Witness for C3 at the concrete worker count 6. -/
theorem claim_C3_thread_count_ladder_witness :
    (thread_counts 6).getLast? = some 6 :=
  (claim_C3_thread_count_ladder.2 6 (by decide)).2.1

lemma load_data_sets_preload (data : List Int) (pr : Bool) :
    (load_data data pr).sets = attachAll data := by
  cases pr
  · rfl
  · show List.map RoScalarSet.clone (attachAll data) = attachAll data
    exact List.map_id' _

lemma sum_flags_le_length (sets : List RoScalarSet) (test_set : RoScalarSet) :
    (sets.map (fun s => evaluate_set_cpu test_set s)).sum ≤ sets.length := by
  induction sets with
  | nil => simp
  | cons s rest ih =>
    simp only [List.map_cons, List.sum_cons, List.length_cons]
    have : evaluate_set_cpu test_set s ≤ 1 := by
      unfold evaluate_set_cpu; split <;> omega
    omega

lemma evaluate_set_cpu_eq_ite (test_set s : RoScalarSet) :
    evaluate_set_cpu test_set s
      = if (∃ v ∈ test_set.values, v ∈ s.values) then 1 else 0 := by
  unfold evaluate_set_cpu RoScalarSet.any RoScalarSet.contains
  by_cases h : ∃ v ∈ test_set.values, v ∈ s.values
  · rw [if_pos h, if_pos]
    obtain ⟨v, hv, hvs⟩ := h
    exact List.any_eq_true.mpr ⟨v, hv, by simpa using hvs⟩
  · rw [if_neg h, if_neg]
    intro hc
    obtain ⟨v, hv, hvs⟩ := List.any_eq_true.mp hc
    exact h ⟨v, hv, by simpa using hvs⟩

lemma sum_flags_eq_countP (sets : List RoScalarSet) (test_set : RoScalarSet) :
    (sets.map (fun s => evaluate_set_cpu test_set s)).sum
      = sets.countP (fun s => decide (∃ v ∈ test_set.values, v ∈ s.values)) := by
  induction sets with
  | nil => simp
  | cons s rest ih =>
    rw [List.map_cons, List.sum_cons, List.countP_cons, ih, evaluate_set_cpu_eq_ite]
    by_cases h : ∃ v ∈ test_set.values, v ∈ s.values
    · simp [h, Nat.add_comm]
    · simp [h]

/-- **C9.** For every CPU evaluation, `match_count` is at most the number of
attached sets; each set contributes the flag 1 exactly when some probe value
is a member of it, and (whenever fewer than `2 ^ 32` sets are attached, so
the `u32` sum cannot wrap) `match_count` is the sum of those flags. -/
theorem claim_C9_cpu_match_count_bound
    (sets : List RoScalarSet) (test_set : RoScalarSet) (pr : Bool) (tc : Nat) :
    (evaluate_with_cpu sets test_set pr tc).match_count ≤ sets.length ∧
    (∀ s ∈ sets, evaluate_set_cpu test_set s
        = if (∃ v ∈ test_set.values, v ∈ s.values) then 1 else 0) ∧
    (sets.length < 2 ^ 32 →
      (evaluate_with_cpu sets test_set pr tc).match_count
        = (sets.map (fun s => evaluate_set_cpu test_set s)).sum) := by
  refine ⟨?_, fun s _ => evaluate_set_cpu_eq_ite test_set s, fun hlen => ?_⟩
  · calc (evaluate_with_cpu sets test_set pr tc).match_count
        ≤ (sets.map (fun s => evaluate_set_cpu test_set s)).sum := Nat.mod_le _ _
      _ ≤ sets.length := sum_flags_le_length sets test_set
  · have hsum := sum_flags_le_length sets test_set
    exact Nat.mod_eq_of_lt (by omega)

/-- Witness for C9 on a concrete two-set corpus and probe. -/
theorem claim_C9_cpu_match_count_bound_witness :
    (evaluate_with_cpu [RoScalarSet.mk [] [1, 2], RoScalarSet.mk [] [5]]
        (RoScalarSet.mk [] [2, 9]) false 1).match_count ≤ 2 ∧
    (evaluate_with_cpu [RoScalarSet.mk [] [1, 2], RoScalarSet.mk [] [5]]
        (RoScalarSet.mk [] [2, 9]) false 1).match_count
      = ([RoScalarSet.mk [] [1, 2], RoScalarSet.mk [] [5]].map
          (fun s => evaluate_set_cpu (RoScalarSet.mk [] [2, 9]) s)).sum :=
  ⟨(claim_C9_cpu_match_count_bound [RoScalarSet.mk [] [1, 2], RoScalarSet.mk [] [5]]
      (RoScalarSet.mk [] [2, 9]) false 1).1,
   (claim_C9_cpu_match_count_bound [RoScalarSet.mk [] [1, 2], RoScalarSet.mk [] [5]]
      (RoScalarSet.mk [] [2, 9]) false 1).2.2 (by decide)⟩

/-- **C5.** CPU `match_count` does not depend on the worker thread count:
single-threaded and 4-thread evaluation of the identical sets and probe give
the identical `match_count`, which (whenever fewer than `2 ^ 32` sets are
attached) equals the number of stored sets sharing at least one value with
the probe set. -/
theorem claim_C5_match_count_thread_independent
    (sets : List RoScalarSet) (test_set : RoScalarSet) (pr : Bool) :
    (evaluate_with_cpu sets test_set pr 1).match_count
      = (evaluate_with_cpu sets test_set pr 4).match_count ∧
    (∀ tc1 tc2 : Nat, (evaluate_with_cpu sets test_set pr tc1).match_count
      = (evaluate_with_cpu sets test_set pr tc2).match_count) ∧
    (sets.length < 2 ^ 32 →
      (evaluate_with_cpu sets test_set pr 1).match_count
        = sets.countP (fun s => decide (∃ v ∈ test_set.values, v ∈ s.values))) := by
  refine ⟨rfl, fun tc1 tc2 => rfl, fun hlen => ?_⟩
  have hsum := sum_flags_le_length sets test_set
  show ((sets.map (fun s => evaluate_set_cpu test_set s)).sum) % 2 ^ 32 = _
  rw [Nat.mod_eq_of_lt (by omega), sum_flags_eq_countP]

/-- Witness for C5 on a concrete two-set corpus and probe
(one of the two stored sets intersects the probe). -/
theorem claim_C5_match_count_thread_independent_witness :
    (evaluate_with_cpu [RoScalarSet.mk [] [1, 2], RoScalarSet.mk [] [7]]
        (RoScalarSet.mk [] [2, 3]) false 1).match_count
      = (evaluate_with_cpu [RoScalarSet.mk [] [1, 2], RoScalarSet.mk [] [7]]
          (RoScalarSet.mk [] [2, 3]) false 4).match_count ∧
    (evaluate_with_cpu [RoScalarSet.mk [] [1, 2], RoScalarSet.mk [] [7]]
        (RoScalarSet.mk [] [2, 3]) false 1).match_count
      = [RoScalarSet.mk [] [1, 2], RoScalarSet.mk [] [7]].countP
          (fun s => decide (∃ v ∈ [(2 : Int), 3], v ∈ s.values)) :=
  ⟨(claim_C5_match_count_thread_independent
      [RoScalarSet.mk [] [1, 2], RoScalarSet.mk [] [7]] (RoScalarSet.mk [] [2, 3]) false).1,
   (claim_C5_match_count_thread_independent
      [RoScalarSet.mk [] [1, 2], RoScalarSet.mk [] [7]] (RoScalarSet.mk [] [2, 3]) false).2.2
     (by decide)⟩

/-- **C4.** For a fixed corpus buffer and probe set, preloading changes only
the `data_preloaded` flag of the result: `match_count` and `thread_count`
agree between the preloaded and the non-preloaded run. -/
theorem claim_C4_preload_does_not_change_match_count
    (data : List Int) (test_set : RoScalarSet) (tc : Nat) :
    (evaluate_with_cpu (load_data data true).sets test_set true tc).match_count
      = (evaluate_with_cpu (load_data data false).sets test_set false tc).match_count ∧
    (evaluate_with_cpu (load_data data true).sets test_set true tc).thread_count
      = (evaluate_with_cpu (load_data data false).sets test_set false tc).thread_count ∧
    (evaluate_with_cpu (load_data data true).sets test_set true tc).data_preloaded = true ∧
    (evaluate_with_cpu (load_data data false).sets test_set false tc).data_preloaded = false := by
  rw [load_data_sets_preload, load_data_sets_preload]
  exact ⟨rfl, rfl, rfl, rfl⟩

/-! ### Set Attacher walks the whole written corpus (C6) -/

lemma attach_serialize (s : RoScalarSet) (tail : List Int) :
    attach (s.serialize ++ tail) = some (s, tail) := by
  have h1 : s.serialize ++ tail
      = (s.buckets.length : Int)
        :: (s.buckets ++ ((s.values.length : Int) :: (s.values ++ tail))) := by
    simp [RoScalarSet.serialize]
  rw [h1]
  simp only [attach, Int.toNat_natCast]
  rw [if_pos (by constructor <;> simp)]
  rw [List.drop_left]
  simp only [Int.toNat_natCast]
  rw [if_pos (by constructor <;> simp)]
  rw [List.take_left, List.take_left, List.drop_left]

lemma attachAll_eq (buffer : List Int) :
    attachAll buffer = match attach buffer with
      | none => []
      | some p => p.1 :: attachAll p.2 := by
  conv_lhs => unfold attachAll
  split <;> rename_i heq <;> rw [heq]

lemma attachAll_none (buffer : List Int) (h : attach buffer = none) :
    attachAll buffer = [] := by
  rw [attachAll_eq, h]

lemma attachAll_some (buffer : List Int) (s : RoScalarSet) (rem : List Int)
    (h : attach buffer = some (s, rem)) : attachAll buffer = s :: attachAll rem := by
  rw [attachAll_eq, h]

lemma attachAll_corpus (sets : List RoScalarSet) :
    attachAll ((sets.map RoScalarSet.serialize).flatten) = sets := by
  induction sets with
  | nil =>
    exact attachAll_none [] rfl
  | cons s rest ih =>
    have hflat : ((s :: rest).map RoScalarSet.serialize).flatten
        = s.serialize ++ (rest.map RoScalarSet.serialize).flatten := by
      simp
    rw [hflat, attachAll_some _ s _ (attach_serialize s _), ih]

/-- **C6.** A corpus written as the in-order concatenation of `N` serialized
sets is recovered by the attach loop as exactly those `N` Stored Set Views in
write order; the loop's walk consumes the corpus completely, and attaching to
the exhausted (empty) tail reports end-of-corpus (`none`), which `attachAll`
treats as normal termination, not an error. -/
theorem claim_C6_attacher_recovers_written_sets (sets : List RoScalarSet) :
    attachAll ((sets.map RoScalarSet.serialize).flatten) = sets ∧
    (attachAll ((sets.map RoScalarSet.serialize).flatten)).length = sets.length ∧
    (∀ pr : Bool, (load_data ((sets.map RoScalarSet.serialize).flatten) pr).sets = sets) ∧
    attach ([] : List Int) = none := by
  refine ⟨attachAll_corpus sets, by rw [attachAll_corpus sets], fun pr => ?_, rfl⟩
  rw [load_data_sets_preload, attachAll_corpus sets]

/-! ### Accelerator path theorems (C2, C7, C8) -/

/-- **C2.** The accelerator float evaluation reports `match_count = 0` for
every raw buffer, attached set collection, and probe set: the kernel records
no result and the host side returns the constant 0. -/
theorem claim_C2_gpu_f32_reports_zero (raw_data : List Int)
    (sets : List RoScalarSet) (test_set : List Int) :
    evaluate_with_gpu_f32 raw_data sets test_set = 0 := rfl

lemma gpuIndexesFrom_length (start : Int) (sets : List RoScalarSet) :
    (gpuIndexesFrom start sets).1.length = sets.length ∧
    (gpuIndexesFrom start sets).2.length = sets.length := by
  induction sets generalizing start with
  | nil => exact ⟨rfl, rfl⟩
  | cons s rest ih =>
    simp only [gpuIndexesFrom, List.length_cons]
    exact ⟨by rw [(ih _).1], by rw [(ih _).2]⟩

lemma gpuIndexesFrom_spec (sets : List RoScalarSet) (start : Int) (i : Nat)
    (hi : i < sets.length) :
    (gpuIndexesFrom start sets).1.getD i 0
      = (if i = 0 then start else (gpuIndexesFrom start sets).2.getD (i - 1) 0)
        + 1 + ((sets.getD i default).bucket_count : Int) + 1 ∧
    (gpuIndexesFrom start sets).2.getD i 0
      = (gpuIndexesFrom start sets).1.getD i 0 + ((sets.getD i default).size : Int) := by
  induction sets generalizing start i with
  | nil => exact absurd hi (by simp)
  | cons s rest ih =>
    cases i with
    | zero =>
      simp only [gpuIndexesFrom, List.getD_cons_zero, if_pos rfl]
      refine ⟨rfl, ?_⟩
      show start + ((1 + s.bucket_count + 1 + s.size : Nat) : Int)
          = start + 1 + (s.bucket_count : Int) + 1 + (s.size : Int)
      push_cast
      ring
    | succ j =>
      have hj : j < rest.length := by
        simpa [Nat.succ_lt_succ_iff] using hi
      have hrec := ih (start + ((1 + s.bucket_count + 1 + s.size : Nat) : Int)) j hj
      simp only [gpuIndexesFrom, List.getD_cons_succ]
      cases j with
      | zero =>
        simpa [List.getD_cons_zero] using hrec
      | succ k =>
        simpa [List.getD_cons_succ] using hrec

/-- **C7.** The accelerator offset tables have one entry per set and satisfy,
with `running_offset` starting at 0: `begin_i = running_offset + 1 +
bucket_count_i + 1`, `end_i = begin_i + size_i`, and the next
`running_offset` is `end_i` (i.e. the offset used for entry `i > 0` is
`end_(i-1)`). -/
theorem claim_C7_gpu_offset_table (sets : List RoScalarSet) (i : Nat)
    (hi : i < sets.length) :
    (gpuIndexesFrom 0 sets).1.length = sets.length ∧
    (gpuIndexesFrom 0 sets).2.length = sets.length ∧
    (gpuIndexesFrom 0 sets).1.getD i 0
      = (if i = 0 then 0 else (gpuIndexesFrom 0 sets).2.getD (i - 1) 0)
        + 1 + ((sets.getD i default).bucket_count : Int) + 1 ∧
    (gpuIndexesFrom 0 sets).2.getD i 0
      = (gpuIndexesFrom 0 sets).1.getD i 0 + ((sets.getD i default).size : Int) :=
  ⟨(gpuIndexesFrom_length 0 sets).1, (gpuIndexesFrom_length 0 sets).2,
   (gpuIndexesFrom_spec sets 0 i hi).1, (gpuIndexesFrom_spec sets 0 i hi).2⟩

/-- Witness for C7 on a concrete two-set collection at index 1. -/
theorem claim_C7_gpu_offset_table_witness :
    (gpuIndexesFrom 0 [RoScalarSet.mk [10, 20] [1, 2, 3], RoScalarSet.mk [30] [4]]).1.getD 1 0
      = (gpuIndexesFrom 0 [RoScalarSet.mk [10, 20] [1, 2, 3], RoScalarSet.mk [30] [4]]).2.getD 0 0
        + 1 + 1 + 1 :=
  (claim_C7_gpu_offset_table
    [RoScalarSet.mk [10, 20] [1, 2, 3], RoScalarSet.mk [30] [4]] 1 (by decide)).2.2.1

/-- **C8.** The accelerator path for the integer representation fails with
the explicit "Not implemented" failure, and the path with accelerator
support compiled out fails with "GPU evaluation support not enabled." — in
both cases no Evaluation Result is produced. -/
theorem claim_C8_gpu_unsupported_paths_fail
    (raw_data : List Int) (sets : List RoScalarSet) (test_set : List Int)
    (sfe : SetsForEvaluation) (probe : List Int) :
    evaluate_with_gpu_i32 raw_data sets test_set = Except.error "Not implemented" ∧
    (∀ n, evaluate_with_gpu_i32 raw_data sets test_set ≠ Except.ok n) ∧
    evaluate_sets_gpu_no_gpu sfe probe
      = Except.error "GPU evaluation support not enabled." ∧
    (∀ r, evaluate_sets_gpu_no_gpu sfe probe ≠ Except.ok r) := by
  refine ⟨rfl, fun n h => ?_, rfl, fun r h => ?_⟩
  · exact Except.noConfusion h
  · exact Except.noConfusion h

/-! ### Value generator theorems (C1) -/

lemma map_eq_self_of_eq {α : Type _} {f : α → α} :
    ∀ {l : List α}, (∀ v ∈ l, f v = v) → l.map f = l := by
  intro l
  induction l with
  | nil => intro _; rfl
  | cons x t ih =>
    intro h
    rw [List.map_cons, h x (List.mem_cons_self x t), ih (fun v hv => h v (List.mem_cons_of_mem x hv))]

lemma generateLoop_sound (n : Nat) :
    ∀ (draws acc out : List Int), acc.Nodup → acc.length ≤ n →
    generateLoop n acc draws = some out →
    out.length = n ∧ out.Nodup ∧ ∀ v ∈ out, v ∈ acc ∨ v ∈ draws := by
  intro draws
  induction draws with
  | nil =>
    intro acc out hnd hle h
    simp only [generateLoop] at h
    split at h
    · rename_i hqn
      obtain rfl := Option.some.inj h
      exact ⟨by omega, hnd, fun v hv => Or.inl hv⟩
    · cases h
  | cons v draws ih =>
    intro acc out hnd hle h
    simp only [generateLoop] at h
    split at h
    · rename_i hqn
      obtain rfl := Option.some.inj h
      exact ⟨by omega, hnd, fun w hw => Or.inl hw⟩
    · rename_i hqn
      by_cases hv : v ∈ acc
      · rw [if_pos hv] at h
        obtain ⟨h1, h2, h3⟩ := ih acc out hnd (by omega) h
        exact ⟨h1, h2, fun w hw => (h3 w hw).imp id (List.mem_cons_of_mem v)⟩
      · rw [if_neg hv] at h
        obtain ⟨h1, h2, h3⟩ := ih (v :: acc) out (List.nodup_cons.mpr ⟨hv, hnd⟩)
          (by simp only [List.length_cons]; omega) h
        refine ⟨h1, h2, fun w hw => ?_⟩
        rcases h3 w hw with hw' | hw'
        · rcases List.mem_cons.mp hw' with rfl | hw''
          · exact Or.inr (List.mem_cons_self w draws)
          · exact Or.inl hw''
        · exact Or.inr (List.mem_cons_of_mem v hw')

lemma from_i32_f32_exact (v : Int) (h1 : -(2 ^ 24) ≤ v) (h2 : v ≤ 2 ^ 24) :
    from_i32_f32 v = v := by
  have hna : v.natAbs ≤ 2 ^ 24 := by omega
  have hr : f32RoundNat v.natAbs = v.natAbs := by
    unfold f32RoundNat
    rw [if_pos hna]
  unfold from_i32_f32
  rw [hr]
  split <;> omega

/-- Counterexample to C1 as stated: over the two-integer range
`[16777216, 16777218)` the generator collects the two distinct `i32` draws
16777216 and 16777217, but both cast to the same `f32` (the tie at
`2 ^ 24 + 1` rounds to even, i.e. down to `2 ^ 24`), so the float-target
output contains a duplicate. -/
theorem claim_C1_value_generator_counterexample :
    generate_values_f32 2 [16777216, 16777217] = some [16777216, 16777216] ∧
    List.Nodup [(16777216 : Int), 16777217] ∧
    (∀ v ∈ [(16777216 : Int), 16777217], 16777216 ≤ v ∧ v < 16777218) ∧
    ¬ List.Nodup [(16777216 : Int), 16777216] := by decide

/-- **C1 (amended).** The generator collects exactly `n` distinct `i32`
values drawn from the range.  For the integer target the returned collection
has exactly `n` elements, no duplicates, and only drawn values.  For the
float target it has exactly `n` elements, but the elements are the `f32`
images of the draws: they are guaranteed pairwise distinct (and equal to the
draws) only when the drawn values lie within `[-2 ^ 24, 2 ^ 24]`, where the
`i32` to `f32` cast is exact — outside that span distinct draws can collide
(see the counterexample). -/
theorem claim_C1_value_generator_distinct_amended
    (n : Nat) (draws out : List Int) :
    (generate_values_i32 n draws = some out →
      out.length = n ∧ out.Nodup ∧ ∀ v ∈ out, v ∈ draws) ∧
    (generate_values_f32 n draws = some out →
      out.length = n ∧
      ((∀ v ∈ draws, -(2 ^ 24) ≤ v ∧ v ≤ 2 ^ 24) →
        out.Nodup ∧ ∀ v ∈ out, v ∈ draws)) := by
  constructor
  · intro h
    unfold generate_values_i32 at h
    cases hg : generateLoop n [] draws with
    | none => rw [hg] at h; cases h
    | some base =>
      rw [hg] at h
      obtain rfl := Option.some.inj h
      obtain ⟨h1, h2, h3⟩ := generateLoop_sound n draws [] base List.nodup_nil (by simp) hg
      have hid : base.map from_i32_i32 = base := map_eq_self_of_eq (fun v _ => rfl)
      simp only [hid]
      exact ⟨h1, h2, fun v hv => (h3 v hv).resolve_left (by simp)⟩
  · intro h
    unfold generate_values_f32 at h
    cases hg : generateLoop n [] draws with
    | none => rw [hg] at h; cases h
    | some base =>
      rw [hg] at h
      obtain rfl := Option.some.inj h
      obtain ⟨h1, h2, h3⟩ := generateLoop_sound n draws [] base List.nodup_nil (by simp) hg
      have hsub : ∀ v ∈ base, v ∈ draws := fun v hv => (h3 v hv).resolve_left (by simp)
      refine ⟨by simp only [List.length_map, h1], fun hrange => ?_⟩
      have hexact : base.map from_i32_f32 = base :=
        map_eq_self_of_eq (fun v hv =>
          from_i32_f32_exact v (hrange v (hsub v hv)).1 (hrange v (hsub v hv)).2)
      simp only [hexact]
      exact ⟨h2, hsub⟩

/-- Witness for the amended C1 on the concrete draw stream `[3, 5]`
(both targets produce the 2-element duplicate-free collection `[5, 3]`). -/
theorem claim_C1_value_generator_distinct_amended_witness :
    ([(5 : Int), 3].length = 2 ∧ [(5 : Int), 3].Nodup ∧
      ∀ v ∈ [(5 : Int), 3], v ∈ [(3 : Int), 5]) ∧
    ([(5 : Int), 3].Nodup ∧ ∀ v ∈ [(5 : Int), 3], v ∈ [(3 : Int), 5]) :=
  ⟨(claim_C1_value_generator_distinct_amended 2 [3, 5] [5, 3]).1 (by decide),
   ((claim_C1_value_generator_distinct_amended 2 [3, 5] [5, 3]).2 (by decide)).2 (by decide)⟩

/-! ### Corpus file-name determinism and injectivity (C10) -/

lemma digitChar_charVal (d : Nat) (hd : d < 10) : charVal (Nat.digitChar d) = d := by
  interval_cases d <;> rfl

lemma mapCharVal_digits (n : Nat) :
    (((Nat.digits 10 n).reverse.map Nat.digitChar).map charVal).reverse
      = Nat.digits 10 n := by
  rw [List.map_map]
  have hmap : ((Nat.digits 10 n).reverse).map (charVal ∘ Nat.digitChar)
      = (Nat.digits 10 n).reverse :=
    map_eq_self_of_eq (fun d hd =>
      digitChar_charVal d (Nat.digits_lt_base (by norm_num) (List.mem_reverse.mp hd)))
  rw [hmap, List.reverse_reverse]

lemma extract_natStr (n : Nat) :
    Nat.ofDigits 10 (((natStr n).map charVal).reverse) = n := by
  unfold natStr
  split
  · rename_i h0
    subst h0
    rfl
  · rw [mapCharVal_digits, Nat.ofDigits_digits]

lemma natStr_inj {a b : Nat} (h : natStr a = natStr b) : a = b := by
  have := congrArg (fun l => Nat.ofDigits 10 ((l.map charVal).reverse)) h
  simpa only [extract_natStr] using this

lemma natStr_digit_chars (n : Nat) : ∀ c ∈ natStr n, 48 ≤ c.toNat ∧ c.toNat ≤ 57 := by
  intro c hc
  unfold natStr at hc
  split at hc
  · rcases List.mem_singleton.mp hc with rfl
    decide
  · obtain ⟨d, hd, rfl⟩ := List.mem_map.mp hc
    have hd10 : d < 10 := Nat.digits_lt_base (by norm_num) (List.mem_reverse.mp hd)
    interval_cases d <;> decide

lemma intStr_no_underscore (v : Int) : '_' ∉ intStr v := by
  intro h
  unfold intStr at h
  have h95 : ('_').toNat = 95 := rfl
  split at h
  · rcases List.mem_cons.mp h with h' | h'
    · exact absurd (congrArg Char.toNat h') (by decide)
    · have := natStr_digit_chars _ _ h'
      omega
  · have := natStr_digit_chars _ _ h
    omega

lemma intStr_inj {a b : Int} (h : intStr a = intStr b) : a = b := by
  unfold intStr at h
  have h45 : ('-').toNat = 45 := rfl
  by_cases ha : a < 0 <;> by_cases hb : b < 0
  · rw [if_pos ha, if_pos hb] at h
    obtain ⟨-, h2⟩ := List.cons.inj h
    have := natStr_inj h2
    omega
  · rw [if_pos ha, if_neg hb] at h
    have hm : '-' ∈ natStr b.natAbs := h ▸ List.mem_cons_self '-' _
    have := natStr_digit_chars _ '-' hm
    omega
  · rw [if_neg ha, if_pos hb] at h
    have hm : '-' ∈ natStr a.natAbs := h.symm ▸ List.mem_cons_self '-' _
    have := natStr_digit_chars _ '-' hm
    omega
  · rw [if_neg ha, if_neg hb] at h
    have := natStr_inj h
    omega

lemma append_underscore_inj :
    ∀ (a1 r1 a2 r2 : List Char), '_' ∉ a1 → '_' ∉ a2 →
    a1 ++ '_' :: r1 = a2 ++ '_' :: r2 → a1 = a2 ∧ r1 = r2 := by
  intro a1
  induction a1 with
  | nil =>
    intro r1 a2 r2 h1 h2 h
    cases a2 with
    | nil =>
      simp only [List.nil_append] at h
      exact ⟨rfl, (List.cons.inj h).2⟩
    | cons c t =>
      exfalso
      simp only [List.nil_append, List.cons_append] at h
      obtain ⟨hc, -⟩ := List.cons.inj h
      exact h2 (hc ▸ List.mem_cons_self c t)
  | cons c t ih =>
    intro r1 a2 r2 h1 h2 h
    cases a2 with
    | nil =>
      exfalso
      simp only [List.cons_append, List.nil_append] at h
      obtain ⟨hc, -⟩ := List.cons.inj h
      exact h1 (hc ▸ List.mem_cons_self c t)
    | cons c2 t2 =>
      simp only [List.cons_append] at h
      obtain ⟨hc, ht⟩ := List.cons.inj h
      obtain ⟨hteq, hreq⟩ := ih r1 t2 r2
        (fun hm => h1 (List.mem_cons_of_mem c hm))
        (fun hm => h2 (List.mem_cons_of_mem c2 hm)) ht
      exact ⟨by rw [hc, hteq], hreq⟩

lemma file_name_core_inj {c1 s1 c2 s2 : Int}
    (h : intStr c1 ++ "_sets_with_".data ++ intStr s1 ++ "_values.bin".data
       = intStr c2 ++ "_sets_with_".data ++ intStr s2 ++ "_values.bin".data) :
    c1 = c2 ∧ s1 = s2 := by
  have h' : intStr c1 ++ '_' :: ("sets_with_".data ++ (intStr s1 ++ "_values.bin".data))
      = intStr c2 ++ '_' :: ("sets_with_".data ++ (intStr s2 ++ "_values.bin".data)) := by
    simpa only [List.append_assoc] using h
  obtain ⟨hc, hrest⟩ := append_underscore_inj _ _ _ _
    (intStr_no_underscore c1) (intStr_no_underscore c2) h'
  have hrest' : intStr s1 ++ '_' :: "values.bin".data
      = intStr s2 ++ '_' :: "values.bin".data :=
    List.append_cancel_left hrest
  obtain ⟨hs, -⟩ := append_underscore_inj _ _ _ _
    (intStr_no_underscore s1) (intStr_no_underscore s2) hrest'
  exact ⟨intStr_inj hc, intStr_inj hs⟩

/-- **C10.** The corpus file name is a deterministic function of the
`(set_count, set_size, floats)` triple and is injective: two triples yield
the same file name exactly when they are equal, so corpus reuse keyed on the
file name can never pick up a corpus generated for a different
configuration. -/
theorem claim_C10_file_name_deterministic_injective
    (c1 s1 : Int) (f1 : Bool) (c2 s2 : Int) (f2 : Bool) :
    get_set_file_name c1 s1 f1 = get_set_file_name c2 s2 f2
      ↔ (c1 = c2 ∧ s1 = s2 ∧ f1 = f2) := by
  constructor
  · intro h
    unfold get_set_file_name at h
    cases f1 <;> cases f2 <;> simp only [Bool.false_eq_true, if_false, if_true] at h
    · injection h with hdata
      obtain ⟨hc, hs⟩ := file_name_core_inj (List.append_cancel_left
        (show ("i32_".data : List Char) ++ _ = "i32_".data ++ _ by
          simpa only [List.append_assoc] using hdata))
      exact ⟨hc, hs, rfl⟩
    · exfalso
      injection h with hdata
      have hh := congrArg List.head? hdata
      simp [List.head?] at hh
    · exfalso
      injection h with hdata
      have hh := congrArg List.head? hdata
      simp [List.head?] at hh
    · injection h with hdata
      obtain ⟨hc, hs⟩ := file_name_core_inj (List.append_cancel_left
        (show ("f32_".data : List Char) ++ _ = "f32_".data ++ _ by
          simpa only [List.append_assoc] using hdata))
      exact ⟨hc, hs, rfl⟩
  · rintro ⟨rfl, rfl, rfl⟩
    rfl

/-- Witness for C10: equal concrete triples produce the same name, and the
name equality at a concrete triple forces the triples to be equal. -/
theorem claim_C10_file_name_deterministic_injective_witness :
    (10 : Int) = 10 ∧ (5 : Int) = 5 ∧ true = true :=
  (claim_C10_file_name_deterministic_injective 10 5 true 10 5 true).mp rfl

end ScalarSetEval
